import Mathlib

/-!  Shallow embedding of `src/app.py` (voicegen).

The embedded pieces are:
* the text normalizer `clean_text_for_tts` (app.py lines 197-232), a pipeline
  of Python `re.sub` passes, each modelled by a structurally recursive
  scanner on `List Char` with the semantics of CPython's `re` module
  (leftmost match, non-overlapping, greedy or non-greedy as written);
* the sentence chunker inlined in `generate_voice_chunked`
  (app.py lines 168-184): `re.split(r'(?<=[.!?])\s+|(?<=\.\.\.)\s+', text)`
  followed by the 400-character accumulation loop;
* the request-handler control flow of `generate_voice` (lines 42-58),
  `generate_voice_chunked` (lines 152-194) and `chat_with_gemini`
  (lines 235-251, 326-334), with the outbound HTTP calls abstracted by
  parameters (credential flags, the upstream model text).
-/

namespace Voicegen

/-- Python `\s` / `str.strip()` whitespace (the ASCII range relevant here:
space, tab, newline, carriage return, vertical tab, form feed). -/
def isPySpace (c : Char) : Bool :=
  c = ' ' || c = '\t' || c = '\n' || c = '\r' || c = Char.ofNat 11 || c = Char.ofNat 12

/-- the character class `[.!?]` used by the sentence-boundary patterns. -/
def isBoundaryChar (c : Char) : Bool :=
  c = '.' || c = '!' || c = '?'

/-- the character class `[A-Z]` (ASCII capitals). -/
def isUpperAZ (c : Char) : Bool :=
  'A' ≤ c && c ≤ 'Z'

/-- the character class `\d` (ASCII digits as used by the list-marker rule). -/
def isDigit09 (c : Char) : Bool :=
  '0' ≤ c && c ≤ '9'

def backquote : Char := Char.ofNat 96

def lbraceChar : Char := Char.ofNat 123

def rbraceChar : Char := Char.ofNat 125

/-- the blocklist class of app.py line 226:
`[#@$%^&*_+=\[\]{}|\\<>~]`. -/
def blockedChars : List Char :=
  ['#', '@', '$', '%', '^', '&', '*', '_', '+', '=', '[', ']',
   lbraceChar, rbraceChar, '|', '\\', '<', '>', '~']

def isBlockedSymbol (c : Char) : Bool :=
  blockedChars.contains c

/-! ### `re.sub(r'\*\*(.+?)\*\*', r'\1', text)` — app.py line 200

Scanner with an optional buffer state.  With state `none` the scanner is
outside any candidate match and copies characters; on `**` it enters state
`some []`.  With state `some buf` it is after an opening `**`, `buf` holding
the reversed group collected so far.  The non-greedy `(.+?)` closes at the
first `**` after at least one group character; `.` does not match `'\n'`,
so a newline (or the end of input) aborts the candidate and the opener and
buffered text are emitted literally.  (When a candidate aborts, no match of
the pattern can start inside the aborted region, because a closing `**`
before the blocking newline would have closed the candidate; so resuming
the scan after the aborted region agrees with CPython's restart at the next
offset.) -/

def subBoldAux : Option (List Char) → List Char → List Char
  | none, [] => []
  | none, [c] => [c]
  | none, c :: d :: cs =>
    if c = '*' ∧ d = '*' then subBoldAux (some []) cs
    else c :: subBoldAux none (d :: cs)
  | some buf, [] => '*' :: '*' :: buf.reverse
  | some buf, [c] =>
    if c = '\n' then ('*' :: '*' :: buf.reverse) ++ ['\n']
    else '*' :: '*' :: buf.reverse ++ [c]
  | some buf, c :: d :: cs =>
    if c = '\n' then ('*' :: '*' :: buf.reverse) ++ '\n' :: subBoldAux none (d :: cs)
    else if buf ≠ [] ∧ c = '*' ∧ d = '*' then buf.reverse ++ subBoldAux none cs
    else subBoldAux (some (c :: buf)) (d :: cs)

def subBold (l : List Char) : List Char :=
  subBoldAux none l

/-! ### `re.sub(r'\*(.+?)\*', r'\1', text)` and the backquote analogue —
app.py lines 201-202.  Same scanner with a one-character delimiter. -/

def subDelimAux (dl : Char) : Option (List Char) → List Char → List Char
  | none, [] => []
  | none, c :: cs =>
    if c = dl then subDelimAux dl (some []) cs
    else c :: subDelimAux dl none cs
  | some buf, [] => dl :: buf.reverse
  | some buf, c :: cs =>
    if c = '\n' then (dl :: buf.reverse) ++ '\n' :: subDelimAux dl none cs
    else if buf ≠ [] ∧ c = dl then buf.reverse ++ subDelimAux dl none cs
    else subDelimAux dl (some (c :: buf)) cs

def subDelim (dl : Char) (l : List Char) : List Char :=
  subDelimAux dl none l

/-! ### list-marker passes — app.py lines 205-206

`re.sub(r'^\s*[-*•]\s+', '', text, flags=re.MULTILINE)` and
`re.sub(r'^\s*\d+\.\s+', '', text, flags=re.MULTILINE)`.
`^` matches at the string start and right after each `'\n'`.  The whole
pattern is deterministic (no productive backtracking: `\s*` is followed by
a non-whitespace marker), so it is scanned by a state machine:

* `norm`: mid-line, no match possible until after the next newline;
* `lineStart buf`: at a line start, `buf` = reversed whitespace consumed
  by `\s*` so far;
* a marker state, awaiting the mandatory `\s+`;
* `inRun lastNl`: consuming the `\s+` of a successful match; `lastNl`
  records whether the last consumed character was a newline, which decides
  whether the resume position is again a line start.

When an attempt fails, the buffered text is emitted literally; a restart at
any line start inside the buffer would consume the remaining whitespace and
fail at the same character, so resuming after the failure point agrees with
CPython. -/

inductive BulletSt where
  | norm
  | lineStart (buf : List Char)
  | afterMark (buf : List Char) (m : Char)
  | inRun (lastNl : Bool)

def isBulletChar (c : Char) : Bool :=
  c = '-' || c = '*' || c = '•'

def subBulletsAux : BulletSt → List Char → List Char
  | .norm, [] => []
  | .norm, c :: cs =>
    if c = '\n' then '\n' :: subBulletsAux (.lineStart []) cs
    else c :: subBulletsAux .norm cs
  | .lineStart buf, [] => buf.reverse
  | .lineStart buf, c :: cs =>
    if isPySpace c then subBulletsAux (.lineStart (c :: buf)) cs
    else if isBulletChar c then subBulletsAux (.afterMark buf c) cs
    else buf.reverse ++ c :: subBulletsAux .norm cs
  | .afterMark buf m, [] => buf.reverse ++ [m]
  | .afterMark buf m, c :: cs =>
    if isPySpace c then subBulletsAux (.inRun (c = '\n')) cs
    else buf.reverse ++ m :: c :: subBulletsAux .norm cs
  | .inRun _, [] => []
  | .inRun lastNl, c :: cs =>
    if isPySpace c then subBulletsAux (.inRun (c = '\n')) cs
    else if lastNl then
      if isBulletChar c then subBulletsAux (.afterMark [] c) cs
      else c :: subBulletsAux .norm cs
    else c :: subBulletsAux .norm cs

def subBullets (l : List Char) : List Char :=
  subBulletsAux (.lineStart []) l

inductive OrdinalSt where
  | norm
  | lineStart (buf : List Char)
  | inDigits (buf : List Char) (ds : List Char)
  | afterDot (buf : List Char) (ds : List Char)
  | inRun (lastNl : Bool)

/-- one `norm`-mode step on a character (emit it; a newline opens a line
start). -/
def ordinalNormStep (c : Char) (rest : List Char → List Char) : List Char :=
  if c = '\n' then '\n' :: rest []
  else c :: rest []

def subOrdinalsAux : OrdinalSt → List Char → List Char
  | .norm, [] => []
  | .norm, c :: cs =>
    if c = '\n' then '\n' :: subOrdinalsAux (.lineStart []) cs
    else c :: subOrdinalsAux .norm cs
  | .lineStart buf, [] => buf.reverse
  | .lineStart buf, c :: cs =>
    if isPySpace c then subOrdinalsAux (.lineStart (c :: buf)) cs
    else if isDigit09 c then subOrdinalsAux (.inDigits buf [c]) cs
    else buf.reverse ++ c :: subOrdinalsAux .norm cs
  | .inDigits buf ds, [] => buf.reverse ++ ds.reverse
  | .inDigits buf ds, c :: cs =>
    if isDigit09 c then subOrdinalsAux (.inDigits buf (c :: ds)) cs
    else if c = '.' then subOrdinalsAux (.afterDot buf ds) cs
    else if c = '\n' then
      buf.reverse ++ ds.reverse ++ '\n' :: subOrdinalsAux (.lineStart []) cs
    else buf.reverse ++ ds.reverse ++ c :: subOrdinalsAux .norm cs
  | .afterDot buf ds, [] => buf.reverse ++ ds.reverse ++ ['.']
  | .afterDot buf ds, c :: cs =>
    if isPySpace c then subOrdinalsAux (.inRun (c = '\n')) cs
    else buf.reverse ++ ds.reverse ++ '.' :: c :: subOrdinalsAux .norm cs
  | .inRun _, [] => []
  | .inRun lastNl, c :: cs =>
    if isPySpace c then subOrdinalsAux (.inRun (c = '\n')) cs
    else if lastNl then
      if isDigit09 c then subOrdinalsAux (.inDigits [] [c]) cs
      else c :: subOrdinalsAux .norm cs
    else c :: subOrdinalsAux .norm cs

def subOrdinals (l : List Char) : List Char :=
  subOrdinalsAux (.lineStart []) l

/-! ### `re.sub(r'[^\S.]+', ' ', text)` — app.py line 209

The class `[^\S.]` is "not a non-whitespace character and not a period";
since `'.'` is not whitespace this is exactly the whitespace class `\s`,
so the pass collapses each whitespace run to a single space.  The `Bool`
state records whether the previous character was whitespace. -/

def collapseWsAux : Bool → List Char → List Char
  | _, [] => []
  | inRun, c :: cs =>
    if isPySpace c then
      if inRun then collapseWsAux true cs else ' ' :: collapseWsAux true cs
    else c :: collapseWsAux false cs

def collapseWs (l : List Char) : List Char :=
  collapseWsAux false l

/-- `re.sub(r'([.!?])([A-Z])', r'\1 \2', text)` — app.py line 212.
The scan resumes after the matched pair. -/
def spaceAfterPunct : List Char → List Char
  | [] => []
  | [c] => [c]
  | c :: d :: cs =>
    if isBoundaryChar c && isUpperAZ d then c :: ' ' :: d :: spaceAfterPunct cs
    else c :: spaceAfterPunct (d :: cs)

/-! ### the two dot-run passes — app.py lines 218-219

`re.sub(r'\.{9,}', '..............', text)`: a maximal dot run of length
≥ 9 becomes exactly 14 dots.

`re.sub(r'\.{3,8}', '...', text)`: greedy `{3,8}`; on a maximal run of
n dots the engine repeatedly consumes `min 8 (remaining)` dots while at
least 3 remain, emitting 3 dots per match, and the final 1 or 2 leftover
dots are copied.  The output length for a maximal run of n dots is
therefore `3 * (n / 8) + min (n % 8) 3`.

Both scanners carry the length of the pending dot run. -/

def dotsOut9 (n : Nat) : List Char :=
  if 9 ≤ n then List.replicate 14 '.' else List.replicate n '.'

def subDots9Aux : Nat → List Char → List Char
  | pend, [] => dotsOut9 pend
  | pend, c :: cs =>
    if c = '.' then subDots9Aux (pend + 1) cs
    else dotsOut9 pend ++ c :: subDots9Aux 0 cs

def subDots9 (l : List Char) : List Char :=
  subDots9Aux 0 l

def dotsOut38 (n : Nat) : List Char :=
  List.replicate (3 * (n / 8) + min (n % 8) 3) '.'

def subDots38Aux : Nat → List Char → List Char
  | pend, [] => dotsOut38 pend
  | pend, c :: cs =>
    if c = '.' then subDots38Aux (pend + 1) cs
    else dotsOut38 pend ++ c :: subDots38Aux 0 cs

def subDots38 (l : List Char) : List Char :=
  subDots38Aux 0 l

/-- `re.sub(r'[!]{2,}', '!', text)` and `re.sub(r'[?]{2,}', '?', text)` —
app.py lines 222-223.  A maximal run of the character collapses to one
occurrence (a run of length 1 is copied, which coincides). -/
def collapseRunsAux (d : Char) : Bool → List Char → List Char
  | _, [] => []
  | inRun, c :: cs =>
    if c = d then
      if inRun then collapseRunsAux d true cs else d :: collapseRunsAux d true cs
    else c :: collapseRunsAux d false cs

def collapseRuns (d : Char) (l : List Char) : List Char :=
  collapseRunsAux d false l

/-- `re.sub(r'[#@$%^&*_+=\[\]{}|\\<>~]', '', text)` — app.py line 226. -/
def removeSymbols (l : List Char) : List Char :=
  l.filter (fun c => !isBlockedSymbol c)

/-- `re.sub(r'\s+\.', '.', text)` — app.py line 229.  A whitespace run
immediately followed by a period is replaced by the period alone; the
state is the reversed pending whitespace run. -/
def subSpaceDotAux : List Char → List Char → List Char
  | pend, [] => pend.reverse
  | pend, c :: cs =>
    if isPySpace c then subSpaceDotAux (c :: pend) cs
    else if c = '.' ∧ pend ≠ [] then '.' :: subSpaceDotAux [] cs
    else pend.reverse ++ c :: subSpaceDotAux [] cs

def subSpaceDot (l : List Char) : List Char :=
  subSpaceDotAux [] l

/-- `re.sub(r'\s{2,}', ' ', text)` — app.py line 230.  Whitespace runs of
length ≥ 2 become a single space; a lone whitespace character is copied
as it is. -/
def spacesOut (pend : List Char) : List Char :=
  if 2 ≤ pend.length then [' '] else pend.reverse

def subSpaces2Aux : List Char → List Char → List Char
  | pend, [] => spacesOut pend
  | pend, c :: cs =>
    if isPySpace c then subSpaces2Aux (c :: pend) cs
    else spacesOut pend ++ c :: subSpaces2Aux [] cs

def subSpaces2 (l : List Char) : List Char :=
  subSpaces2Aux [] l

/-- Python `str.strip()`: drop trailing whitespace. -/
def dropTrailWs (l : List Char) : List Char :=
  (l.reverse.dropWhile isPySpace).reverse

/-- Python `str.strip()`: drop leading and trailing whitespace. -/
def stripChars (l : List Char) : List Char :=
  (dropTrailWs l).dropWhile isPySpace

/-- `clean_text_for_tts` — app.py lines 197-232, the passes composed in
source order. -/
def clean_text_for_tts (s : String) : String :=
  String.mk (stripChars (subSpaces2 (subSpaceDot (removeSymbols
    (collapseRuns '?' (collapseRuns '!' (subDots38 (subDots9
      (spaceAfterPunct (collapseWs (subOrdinals (subBullets
        (subDelim backquote (subDelim '*' (subBold s.data)))))))))))))))

/-! ### the sentence chunker of `generate_voice_chunked` — app.py lines 168-184

`sentences = re.split(r'(?<=[.!?])\s+|(?<=\.\.\.)\s+', text)`:
a separator is a maximal whitespace run whose start position is preceded by
one of `.`, `!`, `?` (the second lookbehind alternative `(?<=\.\.\.)` is
subsumed by the first, because a position preceded by `...` is in
particular preceded by `.`).  `re.split` keeps empty fields, so an empty
input yields `[""]` and a trailing separator yields a trailing `""`.

The first `Bool` state says whether the scanner is inside a separator run
(whose remaining whitespace is dropped); the second records whether the
previous character was one of `.`, `!`, `?`. -/

/-- prepend a character to the first field of a split result. -/
def pushHead (c : Char) : List (List Char) → List (List Char)
  | [] => [[c]]
  | t :: ts => (c :: t) :: ts

def splitSentencesAux : Bool → Bool → List Char → List (List Char)
  | _, _, [] => [[]]
  | inSep, prevB, c :: cs =>
    if inSep then
      if isPySpace c then splitSentencesAux true false cs
      else pushHead c (splitSentencesAux false (isBoundaryChar c) cs)
    else if prevB ∧ isPySpace c then [] :: splitSentencesAux true false cs
    else pushHead c (splitSentencesAux false (isBoundaryChar c) cs)

def splitSentences (l : List Char) : List (List Char) :=
  splitSentencesAux false false l

/-- the chunk-accumulation loop of app.py lines 173-184; `cc` is
`current_chunk`.  A sentence is appended while the combined length stays
strictly below 400; otherwise the non-empty buffer is flushed (stripped)
and a new buffer starts with the current sentence. -/
def chunkLoop : List (List Char) → List Char → List (List Char)
  | [], cc => if cc = [] then [] else [stripChars cc]
  | s :: rest, cc =>
    if cc.length + s.length < 400 then chunkLoop rest (cc ++ s ++ [' '])
    else if cc = [] then chunkLoop rest (s ++ [' '])
    else stripChars cc :: chunkLoop rest (s ++ [' '])

/-- the chunk list computed by `generate_voice_chunked` for a given text. -/
def chunk_text (t : String) : List String :=
  (chunkLoop (splitSentences t.data) []).map String.mk

/-! ### request-handler control flow

The outbound HTTP calls are abstracted: `creds` stands for
`CLOUDFLARE_ACCOUNT_ID and CLOUDFLARE_API_TOKEN` being configured,
`geminiKey` for `GEMINI_API_KEY`, and `raw_response` for the text returned
by the Gemini call.  A `proceed` result means the handler reached the
upstream TTS request with the given payload. -/

/-- `lang_map.get(language, 'en')` — app.py lines 67-78. -/
def lang_map (language : String) : String :=
  if language = "EN" then "en"
  else if language = "ES" then "es"
  else if language = "FR" then "fr"
  else if language = "ZH" then "zh"
  else if language = "JP" then "ja"
  else if language = "KR" then "ko"
  else "en"

inductive VoiceResult where
  | err (status : Nat) (msg : String)
  | proceed (prompt : String) (lang : String)
deriving DecidableEq

/-- `/api/generate-voice` — app.py lines 42-79: credentials check first,
then `data.get('text', '')` / `data.get('language', 'EN')`, then the
empty-text check, then the upstream request is prepared. -/
def generate_voice (creds : Bool) (text language : Option String) : VoiceResult :=
  if creds = false then
    .err 500 "Cloudflare credentials not configured. Please check your .env file."
  else
    let t := text.getD ""
    let lang := language.getD "EN"
    if t = "" then .err 400 "Text is required"
    else .proceed t (lang_map lang)

inductive ChunkedResult where
  | err (status : Nat) (msg : String)
  | viaVoice (r : VoiceResult)
  | chunksJson (chunks : List String) (total : Nat)
deriving DecidableEq

/-- `/api/generate-voice-chunked` — app.py lines 152-194: credentials
check, empty-text check, chunking of the *raw* request text, then either
delegation to `generate_voice()` (at most one chunk) or the
`{chunks, total}` JSON body. -/
def generate_voice_chunked (creds : Bool) (text language : Option String) :
    ChunkedResult :=
  if creds = false then
    .err 500 "Cloudflare credentials not configured."
  else
    let t := text.getD ""
    if t = "" then .err 400 "Text is required"
    else
      let cs := chunk_text t
      if cs.length ≤ 1 then .viaVoice (generate_voice creds text language)
      else .chunksJson cs cs.length

inductive ChatResult where
  | err (status : Nat) (msg : String)
  | ok (response : String)
deriving DecidableEq

/-- `/api/chat` — app.py lines 235-251 and 326-334: Gemini-key check,
empty-message check, then the upstream model text is passed through
`clean_text_for_tts` and returned as `{response, success: true}`. -/
def chat_with_gemini (geminiKey : Bool) (message : Option String)
    (raw_response : String) : ChatResult :=
  if geminiKey = false then
    .err 500 "Gemini API key not configured. Please check your .env file."
  else if message.getD "" = "" then .err 400 "Message is required"
  else .ok (clean_text_for_tts raw_response)

/-! ### spec-side definitions

`wsCanon` renders the spec's notion of whitespace-equivalence: two texts
are whitespace-equivalent when they are equal after collapsing every
whitespace run to one space and trimming.  `joinSpace` is
`" ".join(chunks)`.  `words` (maximal non-whitespace runs, in order) and
`unwordsL` (interleave with single spaces) are proof devices for reasoning
about whitespace equivalence. -/

def wsCanon (s : String) : String :=
  String.mk (stripChars (collapseWs s.data))

/-- maximal non-whitespace runs of a text, in order. -/
def words : List Char → List (List Char)
  | [] => []
  | c :: cs =>
    if isPySpace c then words cs
    else
      match cs with
      | [] => [[c]]
      | d :: _ => if isPySpace d then [c] :: words cs else pushHead c (words cs)

/-- interleave fields with single spaces (`" ".join`). -/
def unwordsL : List (List Char) → List Char
  | [] => []
  | [w] => w
  | w :: v :: ws => w ++ ' ' :: unwordsL (v :: ws)

def joinSpace (l : List String) : String :=
  String.mk (unwordsL (l.map String.data))

/-! Structural description of a fully-cleaned text: the shape
`clean_text_for_tts` is meant to guarantee.  `noTwo p q l` says no
character satisfying `p` is immediately followed by one satisfying `q`;
`noFourDots` bounds every maximal dot run by 3. -/

def noTwo (p q : Char → Bool) : List Char → Bool
  | [] => true
  | [_] => true
  | a :: b :: r => !(p a && q b) && noTwo p q (b :: r)

def noFourDots : List Char → Bool
  | a :: b :: c :: d :: r =>
    !(a = '.' && b = '.' && c = '.' && d = '.') && noFourDots (b :: c :: d :: r)
  | _ => true

/-- does the text begin with a (whitespace-free) bullet-marker match
`[-*•]\s`? -/
def startsBulletB : List Char → Bool
  | c :: d :: _ => isBulletChar c && isPySpace d
  | _ => false

/-- does the text begin with a (whitespace-free) ordinal-marker match
`\d+\.\s`? -/
def startsOrdinalB (l : List Char) : Bool :=
  !(l.takeWhile isDigit09).isEmpty &&
    (match l.dropWhile isDigit09 with
     | '.' :: w :: _ => isPySpace w
     | _ => false)

/-- a text is structurally fully cleaned when no rule of the normalizer
pipeline has anything left to do: no blocklisted symbol (in particular no
`*` or `_`), no backquote, whitespace only as single interior spaces never
preceding a period, no leading bullet or ordinal marker, no
sentence-ending punctuation glued to a capital, dot runs of length at most
3, and no repeated `!` or `?`. -/
def isFullyCleaned (l : List Char) : Bool :=
  l.all (fun c => !isBlockedSymbol c && !(c = backquote) && (!isPySpace c || c = ' ')) &&
  noTwo isPySpace isPySpace l &&
  noTwo isPySpace (fun c => c = '.') l &&
  noTwo isBoundaryChar isUpperAZ l &&
  noTwo (fun c => c = '!') (fun c => c = '!') l &&
  noTwo (fun c => c = '?') (fun c => c = '?') l &&
  noFourDots l &&
  l.head?.all (fun c => !isPySpace c) &&
  l.getLast?.all (fun c => !isPySpace c) &&
  !startsBulletB l && !startsOrdinalB l

/-! concrete inputs used by counterexamples and witnesses. -/

/-- a 250-character sentence of blocklisted underscores: normalization
shortens it drastically, chunking of the raw text does not. -/
def sentUnderscores : List Char :=
  'a' :: (List.replicate 248 '_' ++ ['.'])

def tUnderscores : String :=
  String.mk (sentUnderscores ++ ' ' :: sentUnderscores)

/-- a single 402-character sentence: an oversized chunk. -/
def tOversized : String :=
  String.mk (List.replicate 401 'b' ++ ['.'])

/-! ## Lemmas about `words` -/

theorem pushHead_ne_nil (c : Char) (l : List (List Char)) : pushHead c l ≠ [] := by
  cases l <;> simp [pushHead]

theorem words_ws_cons {c : Char} (h : isPySpace c = true) (x : List Char) :
    words (c :: x) = words x := by
  simp [words, h]

theorem words_ne_nil {c : Char} (h : ¬ isPySpace c = true) (x : List Char) :
    words (c :: x) ≠ [] := by
  cases x with
  | nil => simp [words, h]
  | cons d x' =>
    by_cases hd : isPySpace d
    · simp [words, h, hd]
    · simp only [words, h, if_false, hd]
      exact pushHead_ne_nil _ _

theorem words_append_ws {c : Char} (hc : isPySpace c = true) :
    ∀ (x y : List Char), words (x ++ c :: y) = words x ++ words y := by
  intro x
  induction x with
  | nil =>
    intro y
    rw [List.nil_append, words_ws_cons hc]
    rfl
  | cons a x' ih =>
    intro y
    by_cases ha : isPySpace a
    · rw [List.cons_append, words_ws_cons ha, words_ws_cons ha, ih]
    · cases x' with
      | nil =>
        simp only [List.cons_append, List.nil_append]
        rw [show words (a :: c :: y) = [a] :: words (c :: y) by simp [words, ha, hc]]
        rw [words_ws_cons hc, show words [a] = [[a]] by simp [words, ha]]
        simp
      | cons d x'' =>
        by_cases hd : isPySpace d
        · rw [show (a :: (d :: x'')) ++ c :: y = a :: ((d :: x'') ++ c :: y) by simp]
          rw [show words (a :: ((d :: x'') ++ c :: y)) =
              [a] :: words ((d :: x'') ++ c :: y) by simp [words, ha, hd]]
          rw [show words (a :: d :: x'') = [a] :: words (d :: x'') by simp [words, ha, hd]]
          rw [ih]
          simp
        · rw [show (a :: (d :: x'')) ++ c :: y = a :: ((d :: x'') ++ c :: y) by simp]
          rw [show words (a :: ((d :: x'') ++ c :: y)) =
              pushHead a (words ((d :: x'') ++ c :: y)) by simp [words, ha, hd]]
          rw [show words (a :: d :: x'') = pushHead a (words (d :: x'')) by
            simp [words, ha, hd]]
          rw [ih]
          cases hw : words (d :: x'') with
          | nil => exact absurd hw (words_ne_nil hd x'')
          | cons w t => simp [pushHead]

theorem words_all_ws {w : List Char} (h : ∀ a ∈ w, isPySpace a = true) :
    words w = [] := by
  induction w with
  | nil => rfl
  | cons c w' ih =>
    rw [words_ws_cons (h c (by simp))]
    exact ih (fun a ha => h a (by simp [ha]))

theorem words_ws_front {w : List Char} (h : ∀ a ∈ w, isPySpace a = true)
    (y : List Char) : words (w ++ y) = words y := by
  induction w with
  | nil => rfl
  | cons c w' ih =>
    rw [List.cons_append, words_ws_cons (h c (by simp))]
    exact ih (fun a ha => h a (by simp [ha]))

theorem words_ws_suffix {w : List Char} (h : ∀ a ∈ w, isPySpace a = true)
    (y : List Char) : words (y ++ w) = words y := by
  cases w with
  | nil => simp
  | cons c w' =>
    rw [words_append_ws (h c (by simp)) y w']
    rw [words_all_ws (w := w') (fun a ha => h a (List.mem_cons_of_mem _ ha))]
    simp

theorem words_dropWhile_ws (x : List Char) :
    words (x.dropWhile isPySpace) = words x := by
  conv_rhs => rw [← List.takeWhile_append_dropWhile (p := isPySpace) (l := x)]
  rw [words_ws_front (fun a ha => List.mem_takeWhile_imp ha)]

theorem words_dropTrailWs (x : List Char) :
    words (dropTrailWs x) = words x := by
  have hx : x = dropTrailWs x ++ (x.reverse.takeWhile isPySpace).reverse := by
    unfold dropTrailWs
    rw [← List.reverse_append, List.takeWhile_append_dropWhile, List.reverse_reverse]
  conv_rhs => rw [hx]
  rw [words_ws_suffix]
  intro a ha
  rw [List.mem_reverse] at ha
  exact List.mem_takeWhile_imp ha

theorem words_stripChars (x : List Char) : words (stripChars x) = words x := by
  unfold stripChars
  rw [words_dropWhile_ws, words_dropTrailWs]

theorem words_unwordsL (pieces : List (List Char)) :
    words (unwordsL pieces) = pieces.flatMap words := by
  match pieces with
  | [] => rfl
  | [w] => simp [unwordsL]
  | w :: v :: ws =>
    rw [show unwordsL (w :: v :: ws) = w ++ ' ' :: unwordsL (v :: ws) from rfl]
    rw [words_append_ws (by decide) w (unwordsL (v :: ws))]
    rw [words_unwordsL (v :: ws)]
    simp

/-! ## Lemmas about `dropTrailWs` and `stripChars` -/

theorem dropTrailWs_eq_nil_iff {l : List Char} :
    dropTrailWs l = [] ↔ ∀ a ∈ l, isPySpace a = true := by
  unfold dropTrailWs
  rw [List.reverse_eq_nil_iff, List.dropWhile_eq_nil_iff]
  constructor
  · intro h a ha
    exact h a (List.mem_reverse.mpr ha)
  · intro h a ha
    exact h a (List.mem_reverse.mp ha)

theorem dropTrailWs_cons_of_neg {c : Char} (hc : ¬ isPySpace c = true)
    (l : List Char) : dropTrailWs (c :: l) = c :: dropTrailWs l := by
  unfold dropTrailWs
  rw [show (c :: l).reverse = l.reverse ++ [c] by simp, List.dropWhile_append]
  by_cases h : (l.reverse.dropWhile isPySpace).isEmpty
  · have h' : l.reverse.dropWhile isPySpace = [] := by
      rwa [List.isEmpty_iff] at h
    simp [h, h', List.dropWhile_cons, hc]
  · simp [h]

theorem dropTrailWs_cons_of_pos_ne {c : Char} (hc : isPySpace c = true)
    {l : List Char} (hl : dropTrailWs l ≠ []) :
    dropTrailWs (c :: l) = c :: dropTrailWs l := by
  unfold dropTrailWs at *
  rw [show (c :: l).reverse = l.reverse ++ [c] by simp, List.dropWhile_append]
  have h : ¬ (l.reverse.dropWhile isPySpace).isEmpty := by
    intro h
    rw [List.isEmpty_iff] at h
    simp [h] at hl
  simp [h]

theorem dropTrailWs_cons_of_pos_nil {c : Char} (hc : isPySpace c = true)
    {l : List Char} (hl : dropTrailWs l = []) :
    dropTrailWs (c :: l) = [] := by
  unfold dropTrailWs at *
  rw [show (c :: l).reverse = l.reverse ++ [c] by simp, List.dropWhile_append]
  have h : (l.reverse.dropWhile isPySpace).isEmpty := by
    rw [List.isEmpty_iff]
    rw [List.reverse_eq_nil_iff] at hl
    exact hl
  simp [h, List.dropWhile_cons, hc]

theorem stripChars_ws_cons {c : Char} (hc : isPySpace c = true) (l : List Char) :
    stripChars (c :: l) = stripChars l := by
  unfold stripChars
  by_cases hl : dropTrailWs l = []
  · rw [dropTrailWs_cons_of_pos_nil hc hl, hl]
  · rw [dropTrailWs_cons_of_pos_ne hc hl, List.dropWhile_cons_of_pos hc]

theorem stripChars_cons_of_neg {c : Char} (hc : ¬ isPySpace c = true)
    (l : List Char) : stripChars (c :: l) = c :: dropTrailWs l := by
  unfold stripChars
  rw [dropTrailWs_cons_of_neg hc, List.dropWhile_cons_of_neg hc]

theorem stripChars_eq_dropTrailWs {c : Char} (hc : ¬ isPySpace c = true)
    (l : List Char) : stripChars (c :: l) = dropTrailWs (c :: l) := by
  rw [stripChars_cons_of_neg hc, dropTrailWs_cons_of_neg hc]

/-! ## `collapseWs` and the canonical form -/

theorem collapseWsAux_true_eq (x : List Char) :
    collapseWsAux true x = collapseWs (x.dropWhile isPySpace) := by
  induction x with
  | nil => rfl
  | cons c cs ih =>
    by_cases hc : isPySpace c
    · rw [show collapseWsAux true (c :: cs) = collapseWsAux true cs by
        simp [collapseWsAux, hc]]
      rw [ih, List.dropWhile_cons_of_pos hc]
    · rw [List.dropWhile_cons_of_neg hc]
      simp [collapseWsAux, collapseWs, hc]

theorem collapseWs_cons_of_neg {c : Char} (hc : ¬ isPySpace c = true)
    (x : List Char) : collapseWs (c :: x) = c :: collapseWs x := by
  simp [collapseWs, collapseWsAux, hc]

theorem collapseWs_cons_of_pos {c : Char} (hc : isPySpace c = true)
    (x : List Char) :
    collapseWs (c :: x) = ' ' :: collapseWs (x.dropWhile isPySpace) := by
  rw [show collapseWs (c :: x) = ' ' :: collapseWsAux true x by
    simp [collapseWs, collapseWsAux, hc]]
  rw [collapseWsAux_true_eq]

/-- the canonical form: collapsing whitespace runs and trimming renders a
text as its single-space-separated `words`. -/
theorem strip_collapse_eq_unwords :
    ∀ x : List Char, stripChars (collapseWs x) = unwordsL (words x)
  | [] => rfl
  | c :: x' => by
    by_cases hc : isPySpace c
    · rw [collapseWs_cons_of_pos hc, stripChars_ws_cons (by decide)]
      rw [strip_collapse_eq_unwords (x'.dropWhile isPySpace)]
      rw [words_dropWhile_ws, words_ws_cons hc]
    · rw [collapseWs_cons_of_neg hc, stripChars_cons_of_neg hc]
      match x' with
      | [] =>
        simp [words, hc, collapseWs, collapseWsAux, dropTrailWs, unwordsL]
      | d :: x'' =>
        by_cases hd : isPySpace d
        · rw [show words (c :: d :: x'') = [c] :: words (d :: x'') by
            simp [words, hc, hd]]
          rw [words_ws_cons hd]
          rw [collapseWs_cons_of_pos hd]
          cases hz : x''.dropWhile isPySpace with
          | nil =>
            have hw : words x'' = [] := by
              rw [← words_dropWhile_ws, hz]
              rfl
            rw [hw]
            simp [collapseWs, collapseWsAux, dropTrailWs, unwordsL]
            decide
          | cons a z' =>
            have ha : ¬ isPySpace a = true := by
              have := List.head_dropWhile_not isPySpace x''
              rw [hz] at this
              simpa using this (by simp)
            have hcw : collapseWs (a :: z') = a :: collapseWs z' :=
              collapseWs_cons_of_neg ha _
            have hne : dropTrailWs (collapseWs (a :: z')) ≠ [] := by
              rw [hcw]
              intro hnil
              rw [dropTrailWs_eq_nil_iff] at hnil
              exact ha (hnil a (by simp))
            rw [dropTrailWs_cons_of_pos_ne (by decide) hne]
            have hst : dropTrailWs (collapseWs (a :: z')) =
                stripChars (collapseWs (a :: z')) := by
              rw [hcw, ← stripChars_eq_dropTrailWs ha]
            rw [hst, strip_collapse_eq_unwords (a :: z')]
            have hwz : words (a :: z') ≠ [] := words_ne_nil ha z'
            have hwx : words x'' = words (a :: z') := by
              rw [← words_dropWhile_ws x'', hz]
            rw [hwx]
            cases hw : words (a :: z') with
            | nil => exact absurd hw hwz
            | cons w t => simp [unwordsL]
        · rw [show words (c :: d :: x'') = pushHead c (words (d :: x'')) by
            simp [words, hc, hd]]
          have hcw : collapseWs (d :: x'') = d :: collapseWs x'' :=
            collapseWs_cons_of_neg hd _
          have hne : dropTrailWs (collapseWs (d :: x'')) ≠ [] := by
            rw [hcw]
            intro hnil
            rw [dropTrailWs_eq_nil_iff] at hnil
            exact hd (hnil d (by simp))
          have hst : dropTrailWs (collapseWs (d :: x'')) =
              stripChars (collapseWs (d :: x'')) := by
            rw [hcw, ← stripChars_eq_dropTrailWs hd]
          rw [hst, strip_collapse_eq_unwords (d :: x'')]
          cases hw : words (d :: x'') with
          | nil => exact absurd hw (words_ne_nil hd x'')
          | cons w t =>
            cases t with
            | nil => simp [pushHead, unwordsL]
            | cons u t' => simp [pushHead, unwordsL]
termination_by x => x.length
decreasing_by
  all_goals simp only [List.length_cons]
  all_goals try omega
  all_goals
    (have h2 := (List.dropWhile_sublist (p := isPySpace) (l := x')).length_le
     first
      | (rw [hz] at h2
         simp only [List.length_cons] at h2
         omega)
      | omega)

/-! ## The chunker rearranges exactly the `words` of the input -/

theorem splitAux_cons (inSep prevB : Bool) (c : Char) (cs : List Char) :
    splitSentencesAux inSep prevB (c :: cs) =
      if inSep then
        (if isPySpace c then splitSentencesAux true false cs
         else pushHead c (splitSentencesAux false (isBoundaryChar c) cs))
      else if prevB ∧ isPySpace c then [] :: splitSentencesAux true false cs
      else pushHead c (splitSentencesAux false (isBoundaryChar c) cs) := rfl

theorem chunkLoop_nil_eq (cc : List Char) :
    chunkLoop [] cc = if cc = [] then [] else [stripChars cc] := rfl

theorem chunkLoop_cons_eq (s : List Char) (rest : List (List Char)) (cc : List Char) :
    chunkLoop (s :: rest) cc =
      if cc.length + s.length < 400 then chunkLoop rest (cc ++ s ++ [' '])
      else if cc = [] then chunkLoop rest (s ++ [' '])
      else stripChars cc :: chunkLoop rest (s ++ [' ']) := rfl

theorem words_cons_nonws_nil {c : Char} (hc : ¬ isPySpace c = true) :
    words [c] = [[c]] := by
  simp [words, hc]

theorem words_cons_nonws_ws {c d : Char} (hc : ¬ isPySpace c = true)
    (hd : isPySpace d = true) (x : List Char) :
    words (c :: d :: x) = [c] :: words (d :: x) := by
  simp [words, hc, hd]

theorem words_cons_nonws_nonws {c d : Char} (hc : ¬ isPySpace c = true)
    (hd : ¬ isPySpace d = true) (x : List Char) :
    words (c :: d :: x) = pushHead c (words (d :: x)) := by
  simp [words, hc, hd]

theorem splitAux_ne_nil : ∀ (t : List Char) (inSep prevB : Bool),
    splitSentencesAux inSep prevB t ≠ [] := by
  intro t
  induction t with
  | nil => intro inSep prevB; simp [splitSentencesAux]
  | cons c cs ih =>
    intro inSep prevB
    rw [splitAux_cons]
    split
    · split
      · exact ih true false
      · exact pushHead_ne_nil _ _
    · split
      · simp
      · exact pushHead_ne_nil _ _

theorem words_append_space (x : List Char) : words (x ++ [' ']) = words x :=
  words_ws_suffix (by intro a ha; simp at ha; simp [ha]; decide) x

/-- prepending a character to the first field of a field list whose words
flatten to the words of `cs` yields a field list whose words flatten to
the words of `c :: cs`. -/
theorem pushHead_words {c : Char} {cs : List Char} {b : Bool}
    (h : (splitSentencesAux false b cs).flatMap words = words cs) :
    (pushHead c (splitSentencesAux false b cs)).flatMap words = words (c :: cs) := by
  by_cases hc : isPySpace c
  · cases hL : splitSentencesAux false b cs with
    | nil => exact absurd hL (splitAux_ne_nil cs false b)
    | cons t0 ts =>
      rw [hL] at h
      simp only [pushHead, List.flatMap_cons] at h ⊢
      rw [words_ws_cons hc, words_ws_cons hc]
      exact h
  · cases cs with
    | nil =>
      simp [splitSentencesAux, pushHead, words_cons_nonws_nil hc, words]
    | cons d cs' =>
      by_cases hd : isPySpace d
      · by_cases hb : b = true ∧ isPySpace d = true
        · rw [splitAux_cons, if_neg (by simp), if_pos (by simp [hb.1, hb.2])] at h ⊢
          cases hM : splitSentencesAux true false cs' with
          | nil => exact absurd hM (splitAux_ne_nil cs' true false)
          | cons t1 ts1 =>
            rw [hM] at h
            simp only [pushHead, List.flatMap_cons] at h ⊢
            rw [show words ([] : List Char) = [] from rfl, List.nil_append,
              words_ws_cons hd] at h
            rw [words_cons_nonws_nil hc, words_cons_nonws_ws hc hd,
              words_ws_cons hd]
            simp [h]
        · rw [splitAux_cons, if_neg (by simp), if_neg (by simpa using hb)] at h ⊢
          cases hM : splitSentencesAux false (isBoundaryChar d) cs' with
          | nil => exact absurd hM (splitAux_ne_nil cs' false _)
          | cons t1 ts1 =>
            rw [hM] at h
            simp only [pushHead, List.flatMap_cons] at h ⊢
            rw [words_ws_cons hd, words_ws_cons hd] at h
            rw [words_cons_nonws_ws hc hd, words_ws_cons hd,
              words_cons_nonws_ws hc hd, words_ws_cons hd]
            simp only [List.cons_append]
            rw [h]
      · rw [splitAux_cons, if_neg (by simp), if_neg (by simp [hd])] at h ⊢
        cases hM : splitSentencesAux false (isBoundaryChar d) cs' with
        | nil => exact absurd hM (splitAux_ne_nil cs' false _)
        | cons t1 ts1 =>
          rw [hM] at h
          simp only [pushHead, List.flatMap_cons] at h ⊢
          cases hw : words (d :: t1) with
          | nil => exact absurd hw (words_ne_nil hd t1)
          | cons w tw =>
            rw [hw] at h
            rw [words_cons_nonws_nonws hc hd, words_cons_nonws_nonws hc hd,
              hw, ← h]
            simp [pushHead]

theorem splitAux_words : ∀ (t : List Char) (inSep prevB : Bool),
    (splitSentencesAux inSep prevB t).flatMap words = words t := by
  intro t
  induction t with
  | nil => intro inSep prevB; simp [splitSentencesAux, words]
  | cons c cs ih =>
    intro inSep prevB
    rw [splitAux_cons]
    split
    · split
      · rename_i hc
        rw [ih true false, words_ws_cons hc]
      · exact pushHead_words (ih false (isBoundaryChar c))
    · split
      · rename_i hpb
        simp only [List.flatMap_cons]
        rw [show words ([] : List Char) = [] from rfl, ih true false,
          words_ws_cons hpb.2]
        simp
      · exact pushHead_words (ih false (isBoundaryChar c))

theorem chunkLoop_words : ∀ (sents : List (List Char)) (cc : List Char),
    (cc = [] ∨ ∃ cc', cc = cc' ++ [' ']) →
    (chunkLoop sents cc).flatMap words = words cc ++ sents.flatMap words := by
  intro sents
  induction sents with
  | nil =>
    intro cc hcc
    rw [chunkLoop_nil_eq]
    by_cases hnil : cc = []
    · rw [if_pos hnil, hnil]
      rfl
    · simp [hnil, words_stripChars]
  | cons s rest ih =>
    intro cc hcc
    have hterm : words (cc ++ (s ++ [' '])) = words cc ++ words s := by
      rcases hcc with hnil | ⟨cc', rfl⟩
      · rw [hnil]
        simp [words_append_space, show words ([] : List Char) = [] from rfl]
      · rw [words_ws_suffix (w := [' ']) (by intro a ha; simp at ha; simp [ha]; decide) cc']
        rw [List.append_assoc, List.singleton_append]
        rw [words_append_ws (by decide) cc' (s ++ [' '])]
        rw [words_append_space]
        try rfl
    rw [chunkLoop_cons_eq]
    by_cases hlen : cc.length + s.length < 400
    · rw [if_pos hlen, List.append_assoc]
      rw [ih (cc ++ (s ++ [' '])) (Or.inr ⟨cc ++ s, by simp⟩)]
      rw [hterm]
      simp [List.flatMap_cons]
    · rw [if_neg hlen]
      by_cases hnil : cc = []
      · rw [if_pos hnil]
        rw [ih (s ++ [' ']) (Or.inr ⟨s, rfl⟩), words_append_space]
        simp [hnil, List.flatMap_cons, show words ([] : List Char) = [] from rfl]
      · rw [if_neg hnil]
        simp only [List.flatMap_cons]
        rw [words_stripChars, ih (s ++ [' ']) (Or.inr ⟨s, rfl⟩), words_append_space]
        try simp [List.flatMap_cons]

/-! ## Chunk length bound -/

theorem stripChars_length_le (l : List Char) : (stripChars l).length ≤ l.length := by
  unfold stripChars dropTrailWs
  calc ((l.reverse.dropWhile isPySpace).reverse.dropWhile isPySpace).length
      ≤ (l.reverse.dropWhile isPySpace).reverse.length :=
        (List.dropWhile_sublist _).length_le
    _ = (l.reverse.dropWhile isPySpace).length := List.length_reverse _
    _ ≤ l.reverse.length := (List.dropWhile_sublist _).length_le
    _ = l.length := List.length_reverse _

theorem stripChars_append_space (x : List Char) :
    stripChars (x ++ [' ']) = stripChars x := by
  unfold stripChars dropTrailWs
  rw [List.reverse_append]
  rw [show [' '].reverse ++ x.reverse = ' ' :: x.reverse by simp]
  rw [List.dropWhile_cons_of_pos (by decide)]

/-- an emitted chunk respects the budget unless its buffer was a single
oversized sentence. -/
theorem emitted_chunk_ok {S : List (List Char)} {cc : List Char}
    (hcc : cc = [] ∨ cc.length ≤ 400 ∨ ∃ s ∈ S, cc = s ++ [' ']) :
    (stripChars cc).length ≤ 400 ∨
      ∃ s ∈ S, stripChars cc = stripChars s ∧ 400 < s.length := by
  rcases hcc with rfl | hle | ⟨s, hs, rfl⟩
  · left
    simp [stripChars, dropTrailWs]
  · left
    exact le_trans (stripChars_length_le cc) hle
  · by_cases hp : (stripChars (s ++ [' '])).length ≤ 400
    · exact Or.inl hp
    · right
      refine ⟨s, hs, stripChars_append_space s, ?_⟩
      have h1 : (stripChars (s ++ [' '])).length ≤ s.length := by
        rw [stripChars_append_space]
        exact stripChars_length_le s
      omega

theorem chunkLoop_bound :
    ∀ (sents : List (List Char)) (S : List (List Char)) (cc : List Char),
    (∀ s ∈ sents, s ∈ S) →
    (cc = [] ∨ cc.length ≤ 400 ∨ ∃ s ∈ S, cc = s ++ [' ']) →
    ∀ p ∈ chunkLoop sents cc,
      p.length ≤ 400 ∨ ∃ s ∈ S, p = stripChars s ∧ 400 < s.length := by
  intro sents
  induction sents with
  | nil =>
    intro S cc hmem hcc p hp
    rw [chunkLoop_nil_eq] at hp
    by_cases hnil : cc = []
    · simp [hnil] at hp
    · rw [if_neg hnil] at hp
      simp at hp
      subst hp
      rcases emitted_chunk_ok hcc with h | ⟨s, hs, heq, hlen⟩
      · exact Or.inl h
      · exact Or.inr ⟨s, hs, heq, hlen⟩
  | cons s rest ih =>
    intro S cc hmem hcc p hp
    rw [chunkLoop_cons_eq] at hp
    have hmem' : ∀ u ∈ rest, u ∈ S := fun u hu => hmem u (List.mem_cons_of_mem _ hu)
    have hsS : s ∈ S := hmem s (List.mem_cons_self _ _)
    by_cases hlen : cc.length + s.length < 400
    · rw [if_pos hlen] at hp
      refine ih S (cc ++ s ++ [' ']) hmem' (Or.inr (Or.inl ?_)) p hp
      simp only [List.length_append, List.length_cons, List.length_nil]
      omega
    · rw [if_neg hlen] at hp
      by_cases hnil : cc = []
      · rw [if_pos hnil] at hp
        exact ih S (s ++ [' ']) hmem' (Or.inr (Or.inr ⟨s, hsS, rfl⟩)) p hp
      · rw [if_neg hnil] at hp
        rcases List.mem_cons.mp hp with rfl | hp'
        · rcases emitted_chunk_ok hcc with h | ⟨u, hu, heq, hul⟩
          · exact Or.inl h
          · exact Or.inr ⟨u, hu, heq, hul⟩
        · exact ih S (s ++ [' ']) hmem' (Or.inr (Or.inr ⟨s, hsS, rfl⟩)) p hp'

/-! ## Claim theorems for the chunker -/

/-- **C2** For every input text, every chunk produced by the chunker has
length at most 400 characters — equivalently, any chunk longer than 400
characters is a single sentence of the split, emitted whole (stripped, as
every chunk is), its own length already exceeding 400; no sentence is
truncated or split. -/
theorem chunk_length_bound (t : String) (c : String) (hc : c ∈ chunk_text t)
    (hlen : 400 < c.length) :
    ∃ s ∈ splitSentences t.data, c.data = stripChars s ∧ 400 < s.length := by
  unfold chunk_text at hc
  rw [List.mem_map] at hc
  obtain ⟨p, hp, rfl⟩ := hc
  have hb := chunkLoop_bound (splitSentences t.data) (splitSentences t.data) []
    (fun _ hs => hs) (Or.inl rfl) p hp
  rcases hb with h | ⟨s, hs, rfl, hsl⟩
  · exact absurd hlen (by simpa [String.length] using Nat.not_lt.mpr h)
  · exact ⟨s, hs, rfl, hsl⟩

/-- **C3** Joining all chunks with a single space and trimming is
whitespace-equivalent (equal after collapsing every whitespace run to one
space and trimming) to the input; chunk order preserves sentence order,
since the canonical forms are equal as ordered character sequences. -/
theorem chunks_join_ws_equiv (t : String) :
    wsCanon (joinSpace (chunk_text t)) = wsCanon t := by
  unfold wsCanon joinSpace chunk_text
  apply congrArg String.mk
  rw [show (String.mk (unwordsL (((chunkLoop (splitSentences t.data) []).map
      String.mk).map String.data))).data =
      unwordsL (((chunkLoop (splitSentences t.data) []).map String.mk).map
      String.data) from rfl]
  rw [List.map_map]
  rw [show (String.data ∘ String.mk) = id from funext fun _ => rfl, List.map_id]
  rw [strip_collapse_eq_unwords, strip_collapse_eq_unwords]
  rw [words_unwordsL]
  rw [chunkLoop_words (splitSentences t.data) [] (Or.inl rfl)]
  rw [show words ([] : List Char) = [] from rfl, List.nil_append]
  unfold splitSentences
  rw [splitAux_words]

/-! ## No blocklisted symbol survives the normalizer -/

theorem mem_stripChars {c : Char} {l : List Char} (h : c ∈ stripChars l) :
    c ∈ l := by
  unfold stripChars dropTrailWs at h
  have h1 := List.dropWhile_subset _ h
  rw [List.mem_reverse] at h1
  have h2 := List.dropWhile_subset _ h1
  rwa [List.mem_reverse] at h2

theorem mem_spacesOut {c : Char} {pend : List Char} (h : c ∈ spacesOut pend) :
    c ∈ pend ∨ c = ' ' := by
  unfold spacesOut at h
  by_cases h2 : 2 ≤ pend.length
  · rw [if_pos h2] at h
    simp at h
    exact Or.inr h
  · rw [if_neg h2] at h
    exact Or.inl (List.mem_reverse.mp h)

theorem mem_subSpaceDotAux : ∀ (l pend : List Char) (c : Char),
    c ∈ subSpaceDotAux pend l → c ∈ pend ∨ c ∈ l ∨ c = '.' := by
  intro l
  induction l with
  | nil =>
    intro pend c h
    rw [show subSpaceDotAux pend [] = pend.reverse from rfl] at h
    exact Or.inl (List.mem_reverse.mp h)
  | cons a l' ih =>
    intro pend c h
    by_cases ha : isPySpace a
    · rw [show subSpaceDotAux pend (a :: l') = subSpaceDotAux (a :: pend) l' by
        simp [subSpaceDotAux, ha]] at h
      rcases ih (a :: pend) c h with h1 | h2 | h3
      · rcases List.mem_cons.mp h1 with rfl | h1'
        · exact Or.inr (Or.inl (List.mem_cons_self _ _))
        · exact Or.inl h1'
      · exact Or.inr (Or.inl (List.mem_cons_of_mem _ h2))
      · exact Or.inr (Or.inr h3)
    · by_cases hdot : a = '.' ∧ pend ≠ []
      · obtain ⟨rfl, hpne⟩ := hdot
        rw [show subSpaceDotAux pend ('.' :: l') = '.' :: subSpaceDotAux [] l' by
          simp [subSpaceDotAux, hpne, show isPySpace '.' = false from by decide]] at h
        rcases List.mem_cons.mp h with rfl | h'
        · exact Or.inr (Or.inr rfl)
        · rcases ih [] c h' with h1 | h2 | h3
          · simp at h1
          · exact Or.inr (Or.inl (List.mem_cons_of_mem _ h2))
          · exact Or.inr (Or.inr h3)
      · rw [show subSpaceDotAux pend (a :: l') =
            pend.reverse ++ a :: subSpaceDotAux [] l' by
          rw [show subSpaceDotAux pend (a :: l') =
            if isPySpace a then subSpaceDotAux (a :: pend) l'
            else if a = '.' ∧ pend ≠ [] then '.' :: subSpaceDotAux [] l'
            else pend.reverse ++ a :: subSpaceDotAux [] l' from rfl]
          rw [if_neg ha, if_neg hdot]] at h
        rcases List.mem_append.mp h with h1 | h2
        · exact Or.inl (List.mem_reverse.mp h1)
        · rcases List.mem_cons.mp h2 with rfl | h'
          · exact Or.inr (Or.inl (List.mem_cons_self _ _))
          · rcases ih [] c h' with h1 | h2' | h3
            · simp at h1
            · exact Or.inr (Or.inl (List.mem_cons_of_mem _ h2'))
            · exact Or.inr (Or.inr h3)

theorem mem_subSpaces2Aux : ∀ (l pend : List Char) (c : Char),
    c ∈ subSpaces2Aux pend l → c ∈ pend ∨ c ∈ l ∨ c = ' ' := by
  intro l
  induction l with
  | nil =>
    intro pend c h
    rw [show subSpaces2Aux pend [] = spacesOut pend from rfl] at h
    rcases mem_spacesOut h with h1 | h2
    · exact Or.inl h1
    · exact Or.inr (Or.inr h2)
  | cons a l' ih =>
    intro pend c h
    by_cases ha : isPySpace a
    · rw [show subSpaces2Aux pend (a :: l') = subSpaces2Aux (a :: pend) l' by
        simp [subSpaces2Aux, ha]] at h
      rcases ih (a :: pend) c h with h1 | h2 | h3
      · rcases List.mem_cons.mp h1 with rfl | h1'
        · exact Or.inr (Or.inl (List.mem_cons_self _ _))
        · exact Or.inl h1'
      · exact Or.inr (Or.inl (List.mem_cons_of_mem _ h2))
      · exact Or.inr (Or.inr h3)
    · rw [show subSpaces2Aux pend (a :: l') =
          spacesOut pend ++ a :: subSpaces2Aux [] l' by
        simp [subSpaces2Aux, ha]] at h
      rcases List.mem_append.mp h with h1 | h2
      · rcases mem_spacesOut h1 with h1' | h1''
        · exact Or.inl h1'
        · exact Or.inr (Or.inr h1'')
      · rcases List.mem_cons.mp h2 with rfl | h'
        · exact Or.inr (Or.inl (List.mem_cons_self _ _))
        · rcases ih [] c h' with h1 | h2' | h3
          · simp at h1
          · exact Or.inr (Or.inl (List.mem_cons_of_mem _ h2'))
          · exact Or.inr (Or.inr h3)

theorem mem_removeSymbols_not_blocked {c : Char} {l : List Char}
    (h : c ∈ removeSymbols l) : isBlockedSymbol c = false := by
  unfold removeSymbols at h
  have := List.of_mem_filter h
  simpa using this

set_option maxHeartbeats 1000000 in
/-- **C4** For every input string, the output of the normalizer contains
none of the blocklisted symbol characters
`# @ $ % ^ & * _ + = [ ] { } | \ < > ~`. -/
theorem clean_no_blocked_symbols (s : String) :
    ((clean_text_for_tts s).data.all fun c => !isBlockedSymbol c) = true := by
  rw [List.all_eq_true]
  intro c hc
  rw [show (clean_text_for_tts s).data =
      stripChars (subSpaces2 (subSpaceDot (removeSymbols
        (collapseRuns '?' (collapseRuns '!' (subDots38 (subDots9
          (spaceAfterPunct (collapseWs (subOrdinals (subBullets
            (subDelim backquote (subDelim '*' (subBold s.data)))))))))))))) from
      rfl] at hc
  have h1 := mem_stripChars hc
  unfold subSpaces2 at h1
  rcases mem_subSpaces2Aux _ [] c h1 with hp | h2 | hsp
  · simp at hp
  · unfold subSpaceDot at h2
    rcases mem_subSpaceDotAux _ [] c h2 with hp | h3 | hdot
    · simp at hp
    · rw [mem_removeSymbols_not_blocked h3]
      rfl
    · subst hdot
      decide
  · subst hsp
    decide

/-! ## Trimmedness of the normalizer output -/

theorem dropTrailWs_eq_rdropWhile (l : List Char) :
    dropTrailWs l = l.rdropWhile isPySpace := rfl

/-- a text with no leading and no trailing whitespace is its own strip. -/
theorem stripChars_eq_self {l : List Char}
    (h1 : (l.head?.all fun c => !isPySpace c) = true)
    (h2 : (l.getLast?.all fun c => !isPySpace c) = true) :
    stripChars l = l := by
  cases l with
  | nil => rfl
  | cons c ls =>
    have hc : ¬ isPySpace c = true := by simpa using h1
    have hdt : dropTrailWs (c :: ls) = c :: ls := by
      rw [dropTrailWs_eq_rdropWhile, List.rdropWhile_eq_self_iff]
      intro hl
      rw [List.getLast?_eq_getLast (c :: ls) hl] at h2
      simpa using h2
    unfold stripChars
    rw [hdt, List.dropWhile_cons_of_neg hc]

theorem stripChars_head_ok (l : List Char) :
    ((stripChars l).head?.all fun c => !isPySpace c) = true := by
  have h := List.head?_dropWhile_not isPySpace (dropTrailWs l)
  cases hh : (stripChars l).head? with
  | none => rfl
  | some c =>
    have hh' : ((dropTrailWs l).dropWhile isPySpace).head? = some c := hh
    rw [hh'] at h
    simpa using h

theorem stripChars_getLast_ok (l : List Char) :
    ((stripChars l).getLast?.all fun c => !isPySpace c) = true := by
  by_cases hne : stripChars l = []
  · rw [hne]
    rfl
  · have hZ : dropTrailWs l ≠ [] := by
      intro h0
      apply hne
      unfold stripChars
      rw [h0]
      rfl
    have hq : (dropTrailWs l).getLast? = (stripChars l).getLast? := by
      conv_lhs =>
        rw [← List.takeWhile_append_dropWhile (p := isPySpace) (l := dropTrailWs l)]
      exact List.getLast?_append_of_ne_nil _ hne
    rw [← hq, List.getLast?_eq_getLast _ hZ]
    have hnot := List.rdropWhile_last_not (p := isPySpace) (l := l) hZ
    simpa using hnot

theorem stripChars_idem (l : List Char) :
    stripChars (stripChars l) = stripChars l :=
  stripChars_eq_self (stripChars_head_ok l) (stripChars_getLast_ok l)

/-! ## Request-handler claims and concrete evaluations -/

set_option maxRecDepth 16384

/-- **C1** (evaluation at the spec's own scenario input): the code collapses
the 10-dot run to 6 dots, not 14.  Line 218 first rewrites the run to 14
dots, but line 219's `\.{3,8}` then greedily chops the fresh 14-dot run
into 8 + 6 dots, emitting 3 + 3 = 6 — defeating the "keep as many dots for
dramatic pause" / "Preserve long pauses" comments of lines 215-217. -/
theorem clean_long_dot_run_eval :
    clean_text_for_tts "**Hi** there..........go" = "Hi there......go" := by
  decide

/-- **C5** (counterexample): the normalizer is not idempotent on its own
image.  The blocklist pass (line 226) runs after the dot-run passes, so on
"...#...#...#." the dot runs of length 3, 3, 3, 1 are each left alone and
the removal of the three '#' then merges them into one 10-dot run: the
string ".........." is itself an output of clean_text_for_tts.  At that
image point x = ".........." a further application collapses the 10 dots
to 6 (lines 218-219) and yet another collapses 6 to 3, so
clean_text_for_tts (clean_text_for_tts x) ≠ clean_text_for_tts x. -/
theorem clean_not_idempotent_on_image :
    clean_text_for_tts "...#...#...#." = ".........." ∧
      clean_text_for_tts (clean_text_for_tts "..........") ≠
        clean_text_for_tts ".........." := by
  decide

/-- **C6** (counterexample): the chunking algorithm applied to the empty
string does not produce zero chunks. -/
theorem chunk_empty_ne_nil : chunk_text "" ≠ [] := by
  decide

/-- **C6** (amended): on the empty string `re.split` yields `[""]`, the
loop buffers `" "`, and the final flush emits one empty chunk. -/
theorem chunk_empty_eq_single_empty : chunk_text "" = [""] := by
  decide

/-- **C9** In both voice endpoints the credentials check precedes text
validation: with credentials absent every request gets the 500
configuration error, never a 400, whatever the `text` field holds. -/
theorem creds_check_precedes_text_validation (text language : Option String) :
    generate_voice false text language =
      VoiceResult.err 500
        "Cloudflare credentials not configured. Please check your .env file." ∧
    generate_voice_chunked false text language =
      ChunkedResult.err 500 "Cloudflare credentials not configured." :=
  ⟨rfl, rfl⟩

/-- **C8** (counterexample): a request with empty `text` while credentials
are absent receives the 500 configuration error, not the claimed 400. -/
theorem voice_no_creds_empty_text_500 :
    generate_voice false (some "") (some "EN") =
      VoiceResult.err 500
        "Cloudflare credentials not configured. Please check your .env file." ∧
    generate_voice false (some "") (some "EN") ≠
      VoiceResult.err 400 "Text is required" := by
  exact ⟨rfl, by decide⟩

/-- **C8** (amended): with credentials configured, every request whose
`text` field is missing or empty receives 400 `{error: "Text is
required"}`. -/
theorem voice_empty_text_400 (text language : Option String)
    (h : text.getD "" = "") :
    generate_voice true text language = VoiceResult.err 400 "Text is required" := by
  simp [generate_voice, h]

theorem voice_empty_text_400_witness :
    (none : Option String).getD "" = "" ∧
    generate_voice true none none = VoiceResult.err 400 "Text is required" :=
  ⟨rfl, voice_empty_text_400 none none rfl⟩

set_option maxHeartbeats 4000000 in
/-- **C7** (counterexample): the endpoint chunks the *raw* text, not the
normalized text.  For `tUnderscores` (two 250-character sentences of
blocklisted underscores) normalization-then-chunking yields one chunk, yet
the endpoint does not behave as `/api/generate-voice`: it returns the
two-chunk JSON body. -/
theorem chunked_ignores_normalization :
    (chunk_text (clean_text_for_tts tUnderscores)).length = 1 ∧
    generate_voice_chunked true (some tUnderscores) (some "EN") ≠
      ChunkedResult.viaVoice
        (generate_voice true (some tUnderscores) (some "EN")) := by
  constructor
  · decide
  · decide

/-- **C7** (amended): with credentials configured and non-empty text, if
chunking the *raw* request text yields at most one chunk the endpoint
behaves exactly as `/api/generate-voice` on the same request; otherwise it
returns `{chunks, total}` with `total` the number of chunks. -/
theorem chunked_routing_raw (t : String) (language : Option String)
    (h : t ≠ "") :
    generate_voice_chunked true (some t) language =
      (if (chunk_text t).length ≤ 1
       then ChunkedResult.viaVoice (generate_voice true (some t) language)
       else ChunkedResult.chunksJson (chunk_text t) (chunk_text t).length) := by
  simp [generate_voice_chunked, h]

theorem chunked_routing_raw_witness :
    ("Hi" : String) ≠ "" ∧
    generate_voice_chunked true (some "Hi") (some "EN") =
      (if (chunk_text "Hi").length ≤ 1
       then ChunkedResult.viaVoice (generate_voice true (some "Hi") (some "EN"))
       else ChunkedResult.chunksJson (chunk_text "Hi") (chunk_text "Hi").length) :=
  ⟨by decide, chunked_routing_raw "Hi" (some "EN") (by decide)⟩

set_option maxHeartbeats 1000000 in
/-- **C10** On every successful call `/api/chat` returns not the raw model
output but `clean_text_for_tts` applied to it; in particular the response
is trimmed and free of blocklisted symbols — a guarantee the spec never
states for the chat endpoint. -/
theorem chat_response_normalized (geminiKey : Bool) (message : Option String)
    (raw r : String)
    (h : chat_with_gemini geminiKey message raw = ChatResult.ok r) :
    r = clean_text_for_tts raw ∧
    (r.data.all fun c => !isBlockedSymbol c) = true ∧
    stripChars r.data = r.data := by
  unfold chat_with_gemini at h
  by_cases hk : geminiKey = false
  · simp [hk] at h
  · rw [if_neg hk] at h
    by_cases hm : message.getD "" = ""
    · rw [if_pos hm] at h
      simp at h
    · rw [if_neg hm] at h
      rw [ChatResult.ok.injEq] at h
      subst h
      refine ⟨rfl, clean_no_blocked_symbols raw, ?_⟩
      exact stripChars_idem (subSpaces2 (subSpaceDot (removeSymbols
        (collapseRuns '?' (collapseRuns '!' (subDots38 (subDots9
          (spaceAfterPunct (collapseWs (subOrdinals (subBullets
            (subDelim backquote (subDelim '*' (subBold raw.data))))))))))))))

set_option maxHeartbeats 1000000 in
theorem chunk_length_bound_witness :
    (tOversized ∈ chunk_text tOversized ∧ 400 < tOversized.length) ∧
    ∃ s ∈ splitSentences tOversized.data,
      tOversized.data = stripChars s ∧ 400 < s.length :=
  ⟨⟨by decide, by decide⟩,
   chunk_length_bound tOversized tOversized (by decide) (by decide)⟩

theorem chat_response_normalized_witness :
    chat_with_gemini true (some "hi") "**ok**" = ChatResult.ok "ok" ∧
    (("ok" : String) = clean_text_for_tts "**ok**" ∧
     (("ok" : String).data.all fun c => !isBlockedSymbol c) = true ∧
     stripChars ("ok" : String).data = ("ok" : String).data) :=
  ⟨by decide, chat_response_normalized true (some "hi") "**ok**" "ok" (by decide)⟩

/-! ## Identity of each pass on fully-cleaned text -/

theorem noTwo_tail {p q : Char → Bool} {a : Char} {l : List Char}
    (h : noTwo p q (a :: l) = true) : noTwo p q l = true := by
  cases l with
  | nil => rfl
  | cons b r =>
    rw [show noTwo p q (a :: b :: r) = (!(p a && q b) && noTwo p q (b :: r))
      from rfl] at h
    exact (Bool.and_eq_true_iff.mp h).2

theorem noTwo_head {p q : Char → Bool} {a b : Char} {l : List Char}
    (h : noTwo p q (a :: b :: l) = true) : ¬ (p a = true ∧ q b = true) := by
  rw [show noTwo p q (a :: b :: l) = (!(p a && q b) && noTwo p q (b :: l))
    from rfl] at h
  have h1 := (Bool.and_eq_true_iff.mp h).1
  intro hpq
  rw [hpq.1, hpq.2] at h1
  simp at h1

theorem noFourDots_tail {a : Char} {l : List Char}
    (h : noFourDots (a :: l) = true) : noFourDots l = true := by
  match l with
  | [] => rfl
  | [b] => rfl
  | [b, c] => rfl
  | b :: c :: d :: r =>
    rw [show noFourDots (a :: b :: c :: d :: r) =
      (!(a = '.' && b = '.' && c = '.' && d = '.') &&
        noFourDots (b :: c :: d :: r)) from rfl] at h
    exact (Bool.and_eq_true_iff.mp h).2

theorem noFourDots_leading {l : List Char} (h : noFourDots l = true) :
    (l.takeWhile (fun c => c = '.')).length ≤ 3 := by
  match l with
  | [] => simp
  | [a] => simp [List.takeWhile]; split <;> simp
  | [a, b] =>
    simp [List.takeWhile]
    split <;> (try split) <;> simp
  | [a, b, c] =>
    simp [List.takeWhile]
    split <;> (try split) <;> (try split) <;> simp
  | a :: b :: c :: d :: r =>
    by_cases ha : a = '.'
    · by_cases hb : b = '.'
      · by_cases hc : c = '.'
        · have hd : ¬ d = '.' := by
            intro hd
            rw [show noFourDots (a :: b :: c :: d :: r) =
              (!(a = '.' && b = '.' && c = '.' && d = '.') &&
                noFourDots (b :: c :: d :: r)) from rfl] at h
            rw [ha, hb, hc, hd] at h
            simp at h
          simp [List.takeWhile_cons, ha, hb, hc, hd]
        · simp [List.takeWhile_cons, ha, hb, hc]
      · simp [List.takeWhile_cons, ha, hb]
    · simp [List.takeWhile_cons, ha]

/-- the bold pass is the identity on star-free text. -/
theorem subBold_id : ∀ l : List Char, '*' ∉ l → subBoldAux none l = l := by
  intro l
  induction l with
  | nil => intro; rfl
  | cons c cs ih =>
    intro h
    cases cs with
    | nil => rfl
    | cons d cs' =>
      have hc : ¬ (c = '*' ∧ d = '*') := by
        intro hcd
        exact h (hcd.1 ▸ List.mem_cons_self _ _)
      rw [show subBoldAux none (c :: d :: cs') =
          if c = '*' ∧ d = '*' then subBoldAux (some []) cs'
          else c :: subBoldAux none (d :: cs') from rfl]
      rw [if_neg hc, ih (fun hm => h (List.mem_cons_of_mem _ hm))]

/-- the single-delimiter pass is the identity on delimiter-free text. -/
theorem subDelim_id (dl : Char) : ∀ l : List Char, dl ∉ l →
    subDelimAux dl none l = l := by
  intro l
  induction l with
  | nil => intro; rfl
  | cons c cs ih =>
    intro h
    have hc : ¬ c = dl := by
      intro hcd
      exact h (hcd ▸ List.mem_cons_self _ _)
    rw [show subDelimAux dl none (c :: cs) =
        if c = dl then subDelimAux dl (some []) cs
        else c :: subDelimAux dl none cs from rfl]
    rw [if_neg hc, ih (fun hm => h (List.mem_cons_of_mem _ hm))]

/-- whitespace-run collapsing is the identity when every whitespace
character is a single interior space. -/
theorem collapseWs_id : ∀ l : List Char,
    (∀ c ∈ l, isPySpace c = true → c = ' ') →
    noTwo isPySpace isPySpace l = true →
    collapseWsAux false l = l := by
  intro l
  induction l with
  | nil => intro _ _; rfl
  | cons c cs ih =>
    intro hall hnn
    by_cases hc : isPySpace c
    · rw [show collapseWsAux false (c :: cs) = ' ' :: collapseWsAux true cs
        from by simp [collapseWsAux, hc]]
      have hsp : c = ' ' := hall c (List.mem_cons_self _ _) hc
      subst hsp
      cases cs with
      | nil => rfl
      | cons d cs' =>
        have hd : ¬ isPySpace d = true := fun hd => noTwo_head hnn ⟨hc, hd⟩
        rw [show collapseWsAux true (d :: cs') = collapseWsAux false (d :: cs')
          from by simp [collapseWsAux, hd]]
        rw [ih (fun a ha hw => hall a (List.mem_cons_of_mem _ ha) hw)
          (noTwo_tail hnn)]
    · rw [show collapseWsAux false (c :: cs) = c :: collapseWsAux false cs
        from by simp [collapseWsAux, hc]]
      rw [ih (fun a ha hw => hall a (List.mem_cons_of_mem _ ha) hw)
        (noTwo_tail hnn)]

/-- the run-together-sentence pass is the identity when no boundary
punctuation is glued to a capital. -/
theorem spaceAfterPunct_id : ∀ l : List Char,
    noTwo isBoundaryChar isUpperAZ l = true → spaceAfterPunct l = l := by
  intro l
  induction l with
  | nil => intro _; rfl
  | cons c cs ih =>
    intro h
    cases cs with
    | nil => rfl
    | cons d cs' =>
      have hcd : ¬ (isBoundaryChar c && isUpperAZ d) = true := by
        intro hb
        exact noTwo_head h (Bool.and_eq_true_iff.mp hb)
      rw [show spaceAfterPunct (c :: d :: cs') =
          if isBoundaryChar c && isUpperAZ d then
            c :: ' ' :: d :: spaceAfterPunct cs'
          else c :: spaceAfterPunct (d :: cs') from rfl]
      rw [if_neg hcd, ih (noTwo_tail h)]

/-- exclamation/question-run collapsing is the identity when the character
is never doubled. -/
theorem collapseRuns_id (d : Char) : ∀ l : List Char,
    noTwo (fun c => c = d) (fun c => c = d) l = true →
    collapseRunsAux d false l = l := by
  intro l
  induction l with
  | nil => intro _; rfl
  | cons c cs ih =>
    intro h
    by_cases hc : c = d
    · subst hc
      rw [show collapseRunsAux c false (c :: cs) = c :: collapseRunsAux c true cs
        from by simp [collapseRunsAux]]
      cases cs with
      | nil => rfl
      | cons e cs' =>
        have he : ¬ e = c := fun he => noTwo_head h ⟨by simp, by simp [he]⟩
        rw [show collapseRunsAux c true (e :: cs') =
            collapseRunsAux c false (e :: cs') from by simp [collapseRunsAux, he]]
        rw [ih (noTwo_tail h)]
    · rw [show collapseRunsAux d false (c :: cs) = c :: collapseRunsAux d false cs
        from by simp [collapseRunsAux, hc]]
      rw [ih (noTwo_tail h)]

/-- blocklist removal is the identity on blocklist-free text. -/
theorem removeSymbols_id (l : List Char)
    (h : ∀ c ∈ l, isBlockedSymbol c = false) : removeSymbols l = l := by
  unfold removeSymbols
  rw [List.filter_eq_self]
  intro a ha
  rw [h a ha]
  rfl

theorem dotsOut9_small {n : Nat} (h : n ≤ 3) :
    dotsOut9 n = List.replicate n '.' := by
  unfold dotsOut9
  rw [if_neg (by omega)]

theorem dotsOut38_small {n : Nat} (h : n ≤ 3) :
    dotsOut38 n = List.replicate n '.' := by
  unfold dotsOut38
  have h1 : n / 8 = 0 := Nat.div_eq_of_lt (by omega)
  have h2 : n % 8 = n := Nat.mod_eq_of_lt (by omega)
  rw [h1, h2, Nat.min_eq_left h]
  norm_num

theorem subDots9Aux_repl : ∀ (l : List Char) (pend : Nat),
    pend + (l.takeWhile (fun c => c = '.')).length ≤ 3 →
    noFourDots l = true →
    subDots9Aux pend l = List.replicate pend '.' ++ l := by
  intro l
  induction l with
  | nil =>
    intro pend hinv _
    rw [show subDots9Aux pend [] = dotsOut9 pend from rfl,
      dotsOut9_small (by omega)]
    simp
  | cons c cs ih =>
    intro pend hinv hfour
    by_cases hc : c = '.'
    · subst hc
      rw [show subDots9Aux pend ('.' :: cs) = subDots9Aux (pend + 1) cs
        from by simp [subDots9Aux]]
      have hinv' : pend + 1 + (cs.takeWhile (fun c => c = '.')).length ≤ 3 := by
        rw [List.takeWhile_cons_of_pos (by simp)] at hinv
        simp only [List.length_cons] at hinv
        omega
      rw [ih (pend + 1) hinv' (noFourDots_tail hfour)]
      rw [List.replicate_succ' pend '.']
      simp
    · rw [show subDots9Aux pend (c :: cs) =
          dotsOut9 pend ++ c :: subDots9Aux 0 cs from by simp [subDots9Aux, hc]]
      have hp : pend ≤ 3 := by omega
      rw [dotsOut9_small hp]
      have hfour' := noFourDots_tail hfour
      rw [ih 0 (by simpa using noFourDots_leading hfour') hfour']
      simp

theorem subDots38Aux_repl : ∀ (l : List Char) (pend : Nat),
    pend + (l.takeWhile (fun c => c = '.')).length ≤ 3 →
    noFourDots l = true →
    subDots38Aux pend l = List.replicate pend '.' ++ l := by
  intro l
  induction l with
  | nil =>
    intro pend hinv _
    rw [show subDots38Aux pend [] = dotsOut38 pend from rfl,
      dotsOut38_small (by omega)]
    simp
  | cons c cs ih =>
    intro pend hinv hfour
    by_cases hc : c = '.'
    · subst hc
      rw [show subDots38Aux pend ('.' :: cs) = subDots38Aux (pend + 1) cs
        from by simp [subDots38Aux]]
      have hinv' : pend + 1 + (cs.takeWhile (fun c => c = '.')).length ≤ 3 := by
        rw [List.takeWhile_cons_of_pos (by simp)] at hinv
        simp only [List.length_cons] at hinv
        omega
      rw [ih (pend + 1) hinv' (noFourDots_tail hfour)]
      rw [List.replicate_succ' pend '.']
      simp
    · rw [show subDots38Aux pend (c :: cs) =
          dotsOut38 pend ++ c :: subDots38Aux 0 cs from by simp [subDots38Aux, hc]]
      have hp : pend ≤ 3 := by omega
      rw [dotsOut38_small hp]
      have hfour' := noFourDots_tail hfour
      rw [ih 0 (by simpa using noFourDots_leading hfour') hfour']
      simp

/-- the 9-plus-dots pass is the identity when every dot run is short. -/
theorem subDots9_id (l : List Char) (h : noFourDots l = true) :
    subDots9 l = l := by
  unfold subDots9
  rw [subDots9Aux_repl l 0 (by simpa using noFourDots_leading h) h]
  simp

/-- the 3-to-8-dots pass is the identity when every dot run is at most 3. -/
theorem subDots38_id (l : List Char) (h : noFourDots l = true) :
    subDots38 l = l := by
  unfold subDots38
  rw [subDots38Aux_repl l 0 (by simpa using noFourDots_leading h) h]
  simp

theorem subBulletsNorm_id : ∀ l : List Char, '\n' ∉ l →
    subBulletsAux .norm l = l := by
  intro l
  induction l with
  | nil => intro; rfl
  | cons c cs ih =>
    intro h
    have hc : ¬ c = '\n' := fun hc => h (hc ▸ List.mem_cons_self _ _)
    rw [show subBulletsAux .norm (c :: cs) =
        if c = '\n' then '\n' :: subBulletsAux (.lineStart []) cs
        else c :: subBulletsAux .norm cs from rfl]
    rw [if_neg hc, ih (fun hm => h (List.mem_cons_of_mem _ hm))]

/-- the bullet-marker pass is the identity on newline-free text that does
not begin with a bullet marker followed by whitespace. -/
theorem subBullets_id (l : List Char) (hnl : '\n' ∉ l)
    (hh : (l.head?.all fun c => !isPySpace c) = true)
    (hb : startsBulletB l = false) : subBullets l = l := by
  unfold subBullets
  cases l with
  | nil => rfl
  | cons c cs =>
    have hcws : ¬ isPySpace c = true := by simpa using hh
    rw [show subBulletsAux (.lineStart []) (c :: cs) =
        if isPySpace c then subBulletsAux (.lineStart [c]) cs
        else if isBulletChar c then subBulletsAux (.afterMark [] c) cs
        else [].reverse ++ c :: subBulletsAux .norm cs from rfl]
    rw [if_neg hcws]
    by_cases hbc : isBulletChar c
    · rw [if_pos hbc]
      cases cs with
      | nil => rfl
      | cons d cs' =>
        have hdws : ¬ isPySpace d = true := by
          intro hd
          rw [show startsBulletB (c :: d :: cs') =
            (isBulletChar c && isPySpace d) from rfl, hbc, hd] at hb
          simp at hb
        rw [show subBulletsAux (.afterMark [] c) (d :: cs') =
            if isPySpace d then subBulletsAux (.inRun (d = '\n')) cs'
            else [].reverse ++ c :: d :: subBulletsAux .norm cs' from rfl]
        rw [if_neg hdws]
        rw [subBulletsNorm_id cs'
          (fun hm => hnl (List.mem_cons_of_mem _ (List.mem_cons_of_mem _ hm)))]
        rfl
    · rw [if_neg hbc]
      rw [subBulletsNorm_id cs (fun hm => hnl (List.mem_cons_of_mem _ hm))]
      rfl

theorem subOrdinalsNorm_id : ∀ l : List Char, '\n' ∉ l →
    subOrdinalsAux .norm l = l := by
  intro l
  induction l with
  | nil => intro; rfl
  | cons c cs ih =>
    intro h
    have hc : ¬ c = '\n' := fun hc => h (hc ▸ List.mem_cons_self _ _)
    rw [show subOrdinalsAux .norm (c :: cs) =
        if c = '\n' then '\n' :: subOrdinalsAux (.lineStart []) cs
        else c :: subOrdinalsAux .norm cs from rfl]
    rw [if_neg hc, ih (fun hm => h (List.mem_cons_of_mem _ hm))]

theorem subOrdinalsDigits_repl : ∀ (l buf ds : List Char), '\n' ∉ l →
    (match l.dropWhile isDigit09 with
     | '.' :: w :: _ => isPySpace w
     | _ => false) = false →
    subOrdinalsAux (.inDigits buf ds) l = buf.reverse ++ ds.reverse ++ l := by
  intro l
  induction l with
  | nil =>
    intro buf ds _ _
    rw [show subOrdinalsAux (.inDigits buf ds) [] = buf.reverse ++ ds.reverse
      from rfl]
    simp
  | cons c cs ih =>
    intro buf ds hnl hm
    by_cases hd : isDigit09 c
    · rw [show subOrdinalsAux (.inDigits buf ds) (c :: cs) =
          subOrdinalsAux (.inDigits buf (c :: ds)) cs from by
        simp [subOrdinalsAux, hd]]
      rw [List.dropWhile_cons_of_pos hd] at hm
      rw [ih buf (c :: ds) (fun hmem => hnl (List.mem_cons_of_mem _ hmem)) hm]
      simp
    · rw [List.dropWhile_cons_of_neg hd] at hm
      by_cases hdot : c = '.'
      · subst hdot
        rw [show subOrdinalsAux (.inDigits buf ds) ('.' :: cs) =
            subOrdinalsAux (.afterDot buf ds) cs from by
          simp [subOrdinalsAux, hd]]
        cases cs with
        | nil =>
          rw [show subOrdinalsAux (.afterDot buf ds) [] =
              buf.reverse ++ ds.reverse ++ ['.'] from rfl]
        | cons w cs' =>
          have hwns : ¬ isPySpace w = true := by simpa using hm
          rw [show subOrdinalsAux (.afterDot buf ds) (w :: cs') =
              if isPySpace w then subOrdinalsAux (.inRun (w = '\n')) cs'
              else buf.reverse ++ ds.reverse ++ '.' :: w :: subOrdinalsAux .norm cs'
              from rfl]
          rw [if_neg hwns]
          rw [subOrdinalsNorm_id cs' (fun hmem =>
            hnl (List.mem_cons_of_mem _ (List.mem_cons_of_mem _ hmem)))]
      · have hcnl : ¬ c = '\n' := fun hc => hnl (hc ▸ List.mem_cons_self _ _)
        rw [show subOrdinalsAux (.inDigits buf ds) (c :: cs) =
            if isDigit09 c then subOrdinalsAux (.inDigits buf (c :: ds)) cs
            else if c = '.' then subOrdinalsAux (.afterDot buf ds) cs
            else if c = '\n' then
              buf.reverse ++ ds.reverse ++ '\n' :: subOrdinalsAux (.lineStart []) cs
            else buf.reverse ++ ds.reverse ++ c :: subOrdinalsAux .norm cs
            from rfl]
        rw [if_neg hd, if_neg hdot, if_neg hcnl]
        rw [subOrdinalsNorm_id cs (fun hmem => hnl (List.mem_cons_of_mem _ hmem))]

/-- the ordinal-marker pass is the identity on newline-free text that does
not begin with an ordinal marker. -/
theorem subOrdinals_id (l : List Char) (hnl : '\n' ∉ l)
    (hh : (l.head?.all fun c => !isPySpace c) = true)
    (ho : startsOrdinalB l = false) : subOrdinals l = l := by
  unfold subOrdinals
  cases l with
  | nil => rfl
  | cons c cs =>
    have hcws : ¬ isPySpace c = true := by simpa using hh
    rw [show subOrdinalsAux (.lineStart []) (c :: cs) =
        if isPySpace c then subOrdinalsAux (.lineStart [c]) cs
        else if isDigit09 c then subOrdinalsAux (.inDigits [] [c]) cs
        else [].reverse ++ c :: subOrdinalsAux .norm cs from rfl]
    rw [if_neg hcws]
    by_cases hd : isDigit09 c
    · rw [if_pos hd]
      have hm : (match cs.dropWhile isDigit09 with
          | '.' :: w :: _ => isPySpace w
          | _ => false) = false := by
        unfold startsOrdinalB at ho
        rw [List.takeWhile_cons_of_pos hd, List.dropWhile_cons_of_pos hd] at ho
        simpa using ho
      rw [subOrdinalsDigits_repl cs [] [c]
        (fun hmem => hnl (List.mem_cons_of_mem _ hmem)) hm]
      rfl
    · rw [if_neg hd]
      rw [subOrdinalsNorm_id cs (fun hmem => hnl (List.mem_cons_of_mem _ hmem))]
      rfl

/-- the space-before-period pass is the identity when no whitespace is
doubled or followed by a period. -/
theorem subSpaceDot_id : ∀ l : List Char,
    noTwo isPySpace isPySpace l = true →
    noTwo isPySpace (fun c => c = '.') l = true →
    subSpaceDotAux [] l = l
  | [] => by intro _ _; rfl
  | c :: cs => by
    intro h1 h2
    by_cases hc : isPySpace c
    · rw [show subSpaceDotAux [] (c :: cs) = subSpaceDotAux [c] cs from by
        simp [subSpaceDotAux, hc]]
      cases cs with
      | nil => rfl
      | cons d cs' =>
        have hd : ¬ isPySpace d = true := fun hd => noTwo_head h1 ⟨hc, hd⟩
        have hdot : ¬ d = '.' := fun hd => noTwo_head h2 ⟨hc, by simp [hd]⟩
        rw [show subSpaceDotAux [c] (d :: cs') =
            [c].reverse ++ d :: subSpaceDotAux [] cs' from by
          simp [subSpaceDotAux, hd, hdot]]
        rw [subSpaceDot_id cs' (noTwo_tail (noTwo_tail h1))
          (noTwo_tail (noTwo_tail h2))]
        rfl
    · rw [show subSpaceDotAux [] (c :: cs) = c :: subSpaceDotAux [] cs from by
        simp [subSpaceDotAux, hc]]
      rw [subSpaceDot_id cs (noTwo_tail h1) (noTwo_tail h2)]
termination_by l => l.length
decreasing_by
  · simp only [List.length_cons]
    omega
  · simp

/-- the multi-space pass is the identity when no whitespace is doubled. -/
theorem subSpaces2_id : ∀ l : List Char,
    noTwo isPySpace isPySpace l = true →
    subSpaces2Aux [] l = l
  | [] => by intro _; rfl
  | c :: cs => by
    intro h1
    by_cases hc : isPySpace c
    · rw [show subSpaces2Aux [] (c :: cs) = subSpaces2Aux [c] cs from by
        simp [subSpaces2Aux, hc]]
      cases cs with
      | nil => rfl
      | cons d cs' =>
        have hd : ¬ isPySpace d = true := fun hd => noTwo_head h1 ⟨hc, hd⟩
        rw [show subSpaces2Aux [c] (d :: cs') =
            spacesOut [c] ++ d :: subSpaces2Aux [] cs' from by
          simp [subSpaces2Aux, hd]]
        rw [subSpaces2_id cs' (noTwo_tail (noTwo_tail h1))]
        rfl
    · rw [show subSpaces2Aux [] (c :: cs) =
          spacesOut [] ++ c :: subSpaces2Aux [] cs from by
        simp [subSpaces2Aux, hc]]
      rw [subSpaces2_id cs (noTwo_tail h1)]
      rfl
termination_by l => l.length
decreasing_by
  · simp only [List.length_cons]
    omega
  · simp

/-- **C5** (amended) The normalizer is the identity on every structurally
fully-cleaned text — text on which no rule of the pipeline has anything
left to do (see `isFullyCleaned`).  Outputs of the normalizer itself need
not be of this shape (see the counterexample), so idempotence holds for
this structural reading of "fully-cleaned input", not for the image of the
normalizer. -/
theorem clean_id_on_fully_cleaned (s : String)
    (h : isFullyCleaned s.data = true) : clean_text_for_tts s = s := by
  obtain ⟨l⟩ := s
  have hdata : (String.mk l).data = l := rfl
  rw [hdata] at h
  unfold isFullyCleaned at h
  have p1 := Bool.and_eq_true_iff.mp h
  have p2 := Bool.and_eq_true_iff.mp p1.1
  have p3 := Bool.and_eq_true_iff.mp p2.1
  have p4 := Bool.and_eq_true_iff.mp p3.1
  have p5 := Bool.and_eq_true_iff.mp p4.1
  have p6 := Bool.and_eq_true_iff.mp p5.1
  have p7 := Bool.and_eq_true_iff.mp p6.1
  have p8 := Bool.and_eq_true_iff.mp p7.1
  have p9 := Bool.and_eq_true_iff.mp p8.1
  have p10 := Bool.and_eq_true_iff.mp p9.1
  have hallraw := p10.1
  have hnn := p10.2
  have hnd := p9.2
  have hpc := p8.2
  have hbang := p7.2
  have hqq := p6.2
  have h4d := p5.2
  have hhd := p4.2
  have hgl := p3.2
  have hnb : startsBulletB l = false := by simpa using p2.2
  have hno : startsOrdinalB l = false := by simpa using p1.2
  have hprop : ∀ c ∈ l, isBlockedSymbol c = false ∧ ¬ c = backquote ∧
      (isPySpace c = true → c = ' ') := by
    intro c hc
    have hcp := List.all_eq_true.mp hallraw c hc
    simp only [Bool.and_eq_true, Bool.not_eq_true', Bool.or_eq_true,
      Bool.not_eq_true, decide_eq_true_eq] at hcp
    refine ⟨hcp.1.1, ?_, ?_⟩
    · intro hbq
      have := hcp.1.2
      rw [hbq] at this
      simp at this
    · intro hws
      rcases hcp.2 with hcp' | hcp'
      · rw [hws] at hcp'
        simp at hcp'
      · exact hcp'
  have hstar : '*' ∉ l := by
    intro hm
    have := (hprop '*' hm).1
    rw [show isBlockedSymbol '*' = true from by decide] at this
    simp at this
  have hbq : backquote ∉ l := fun hm => (hprop backquote hm).2.1 rfl
  have hnl : '\n' ∉ l := by
    intro hm
    have := (hprop '\n' hm).2.2 (by decide)
    exact absurd this (by decide)
  have hws' : ∀ c ∈ l, isPySpace c = true → c = ' ' :=
    fun c hc => (hprop c hc).2.2
  have hblocked : ∀ c ∈ l, isBlockedSymbol c = false :=
    fun c hc => (hprop c hc).1
  show String.mk (stripChars (subSpaces2 (subSpaceDot (removeSymbols
    (collapseRuns '?' (collapseRuns '!' (subDots38 (subDots9
      (spaceAfterPunct (collapseWs (subOrdinals (subBullets
        (subDelim backquote (subDelim '*' (subBold l)))))))))))))))
    = String.mk l
  rw [show subBold l = l from subBold_id l hstar]
  rw [show subDelim '*' l = l from subDelim_id '*' l hstar]
  rw [show subDelim backquote l = l from subDelim_id backquote l hbq]
  rw [subBullets_id l hnl hhd hnb]
  rw [subOrdinals_id l hnl hhd hno]
  rw [show collapseWs l = l from collapseWs_id l hws' hnn]
  rw [spaceAfterPunct_id l hpc]
  rw [subDots9_id l h4d]
  rw [subDots38_id l h4d]
  rw [show collapseRuns '!' l = l from collapseRuns_id '!' l hbang]
  rw [show collapseRuns '?' l = l from collapseRuns_id '?' l hqq]
  rw [removeSymbols_id l hblocked]
  rw [show subSpaceDot l = l from subSpaceDot_id l hnn hnd]
  rw [show subSpaces2 l = l from subSpaces2_id l hnn]
  rw [stripChars_eq_self hhd hgl]

theorem clean_id_on_fully_cleaned_witness :
    isFullyCleaned ("Hello world. How are you?" : String).data = true ∧
    clean_text_for_tts "Hello world. How are you?" = "Hello world. How are you?" :=
  ⟨by decide, clean_id_on_fully_cleaned "Hello world. How are you?" (by decide)⟩

end Voicegen
